import Mathlib

/-!
Verification of the twoslash snippet classifier / wrapper / offset remapper
(`src/librustdoc/html/twoslash.rs`).

Text is modelled as `List Char`; all offsets and lengths are byte counts,
computed from the UTF-8 size of each character, exactly as the Rust code
indexes `str` by bytes.  Rust byte-slicing of a `str` panics when the index
is not a character boundary; that partiality is modelled by `byteSplitAt`
returning `Option`.
-/

namespace Twoslash

/-- UTF-8 byte length of a text, mirroring Rust `str::len`. -/
def utf8Len : List Char → Nat
  | [] => 0
  | c :: cs => c.utf8Size + utf8Len cs

/-- Split a text at a byte index, mirroring Rust `&s[..i]` / `&s[i..]`.
Returns `none` when the index is not a character boundary (or past the end),
which is where the Rust slicing operation panics. -/
def byteSplitAt : List Char → Nat → Option (List Char × List Char)
  | cs, 0 => some ([], cs)
  | [], _ + 1 => none
  | c :: cs, n + 1 =>
    if c.utf8Size ≤ n + 1 then
      match byteSplitAt cs (n + 1 - c.utf8Size) with
      | some (l, r) => some (c :: l, r)
      | none => none
    else none

/-- The Unicode `White_Space` characters, as recognised by Rust
`char::is_whitespace` (used by `str::trim`). -/
def rustIsWs (c : Char) : Bool :=
  c = ' ' || c = '\t' || c = '\n' || c = '\x0B' || c = '\x0C' || c = '\r' ||
  c = '\u0085' || c = '\u00A0' || c = '\u1680' ||
  ('\u2000' ≤ c && c ≤ '\u200A') ||
  c = '\u2028' || c = '\u2029' || c = '\u202F' || c = '\u205F' || c = '\u3000'

/-- Rust `str::trim`: remove whitespace from both ends. -/
def rustTrim (l : List Char) : List Char :=
  ((l.dropWhile rustIsWs).reverse.dropWhile rustIsWs).reverse

/-- One step of the newline split: start a new segment at a newline, else
prepend the character to the current head segment. -/
def splitNlCons (c : Char) : List (List Char) → List (List Char)
  | [] => []
  | l :: ls => if c = '\n' then [] :: l :: ls else (c :: l) :: ls

/-- Split a text on every newline character; always returns at least one
segment, and none of the segments contains a newline. -/
def splitNl : List Char → List (List Char)
  | [] => [[]]
  | c :: cs => splitNlCons c (splitNl cs)

/-- Strip one trailing carriage return, mirroring what Rust `str::lines`
does to each segment that ended with a newline. -/
def stripCr (l : List Char) : List Char :=
  if l.getLast? = some '\r' then l.dropLast else l

/-- Post-process the newline-split segments the way Rust `str::lines` does:
every segment that was newline-terminated has a trailing carriage return
stripped; a final empty segment (from a trailing newline, or empty input)
is dropped; a final non-empty segment is kept verbatim. -/
def linesFix : List (List Char) → List (List Char)
  | [] => []
  | [l] => if l = [] then [] else [l]
  | l :: ls => stripCr l :: linesFix ls

/-- Rust `str::lines`. -/
def rustLines (cs : List Char) : List (List Char) := linesFix (splitNl cs)

/-- Rust `str::contains` with a literal pattern: some suffix of the
haystack starts with the needle. -/
def containsSub (needle : List Char) : List Char → Bool
  | [] => needle.isEmpty
  | c :: cs => needle.isPrefixOf (c :: cs) || containsSub needle cs

/-- `ITEM_KEYWORDS` from the source: keyword prefixes of top-level items. -/
def ITEM_KEYWORDS : List (List Char) :=
  ["fn ", "struct ", "enum ", "impl ", "trait ", "mod ",
   "pub ", "extern ", "const ", "static ", "type ",
   "use ", "#[", "#!"].map String.toList

/-- `is_item_line` from the source: a trimmed, non-empty line starting with
one of the item keywords. -/
def is_item_line (line : List Char) : Bool :=
  let trimmed := rustTrim line
  if trimmed = [] then false
  else ITEM_KEYWORDS.any (fun kw => kw.isPrefixOf trimmed)

/-- Net brace count of a line: occurrences of the opening brace minus
occurrences of the closing brace (the source counts the two separately
with `+=` and `-=`, which amounts to adding this difference). -/
def braceDelta (ts : List Char) : Int :=
  ((ts.filter (fun c => c = '\x7b')).length : Int) -
    ((ts.filter (fun c => c = '\x7d')).length : Int)

/-- The `if brace_depth < 0 { brace_depth = 0 }` clamp from the source. -/
def clampDepth (d : Int) : Int := if d < 0 then 0 else d

/-- The line scan of `split_items_and_statements`: walks the lines keeping
the brace depth, the running byte offset (each line costs its byte length
plus one for the newline), and the current split point; returns the final
split point.  Mirrors the `for (_i, line) in lines.iter().enumerate()` loop
of the source, including the early `break` on the first statement line. -/
def scanLines : List (List Char) → Int → Nat → Nat → Nat
  | [], _, _, split => split
  | line :: rest, depth, off, split =>
    if 0 < depth then
      if depth + braceDelta (rustTrim line) ≤ 0 then
        scanLines rest 0 (off + (utf8Len line + 1)) (off + (utf8Len line + 1))
      else
        scanLines rest (depth + braceDelta (rustTrim line)) (off + (utf8Len line + 1)) split
    else if rustTrim line = [] then
      scanLines rest depth (off + (utf8Len line + 1)) (off + (utf8Len line + 1))
    else if is_item_line (rustTrim line) then
      if clampDepth (depth + braceDelta (rustTrim line)) = 0 then
        scanLines rest 0 (off + (utf8Len line + 1)) (off + (utf8Len line + 1))
      else
        scanLines rest (clampDepth (depth + braceDelta (rustTrim line))) (off + (utf8Len line + 1)) split
    else split

/-- The tail of `split_items_and_statements`: given the result of slicing
the snippet at the split point, collapse to (snippet, "") when the body is
all whitespace (`body.trim().is_empty()` in the source). -/
def splitFixup (code : List Char) : Option (List Char × List Char) →
    Option (List Char × List Char)
  | none => none
  | some (pre, body) =>
    if rustTrim body = [] then some (code, [])
    else some (pre, body)

/-- `split_items_and_statements` from the source.  Returns `none` exactly
where the Rust function panics: when the computed split point is not a
character boundary of the snippet (`&code[..split_point]`). -/
def split_items_and_statements (code : List Char) : Option (List Char × List Char) :=
  if containsSub ("fn main".toList) code then some (code, [])
  else
    splitFixup code
      (byteSplitAt code (min (scanLines (rustLines code) 0 0 0) (utf8Len code)))

/-- A raw hover record as produced by the analysis engine, in wrapped-text
coordinates (`static_quick_infos` entries in the source). -/
structure RawAnnot where
  start : Nat
  length : Nat
  text : List Char
  docs : Option (List Char)
deriving DecidableEq, Repr

/-- `TypeAnnotation` from the source, in original-snippet coordinates. -/
structure TypeAnnot where
  start : Nat
  length : Nat
  type_text : List Char
  docs : Option (List Char)
deriving DecidableEq, Repr

/-- The `fn_main_prefix` literal of the source: the entry-point header
followed by a newline (12 bytes). -/
def fnMainHdr : List Char := "fn main() \x7b\n".toList

/-- The `suffix` literal of the source: a newline then a closing brace. -/
def wrapSfx : List Char := "\n\x7d".toList

/-- The `adjusted_start` computation of `process_code_block`: `none` means
the annotation is dropped (it falls inside the synthetic header). -/
def adjust_start (preamble_len fn_main_offset s : Nat) : Option Nat :=
  if fn_main_offset = 0 then some s
  else if s < preamble_len then some s
  else if s < preamble_len + fn_main_offset then none
  else some (s - fn_main_offset)

/-- The filters of `process_code_block` that run after the start
adjustment: drop records starting at or past the end of the original
snippet and records of byte length at most one. -/
def remapFinish (info : RawAnnot) (original_len : Nat) : Option Nat → Option TypeAnnot
  | none => none
  | some adjusted_start =>
    if original_len ≤ adjusted_start then none
    else if info.length ≤ 1 then none
    else some ⟨adjusted_start, info.length, info.text, info.docs⟩

/-- The per-record body of the `filter_map` in `process_code_block`:
adjust the start, then apply the post-adjustment filters. -/
def remapOne (preamble_len fn_main_offset original_len : Nat) (info : RawAnnot) :
    Option TypeAnnot :=
  remapFinish info original_len (adjust_start preamble_len fn_main_offset info.start)

/-- The whole `filter_map(...).collect()` of `process_code_block`. -/
def remap (infos : List RawAnnot) (preamble_len fn_main_offset original_len : Nat) :
    List TypeAnnot :=
  infos.filterMap (remapOne preamble_len fn_main_offset original_len)

/-- The `if needs_wrap` block of `process_code_block` applied to a
classification: build the wrapped program and the two recorded byte
lengths, or keep the snippet with both lengths zero. -/
def wrapFixup (code : List Char) : Option (List Char × List Char) →
    Option (List Char × Nat × Nat)
  | none => none
  | some (preamble, body) =>
    if body = [] then some (code, 0, 0)
    else some (preamble ++ fnMainHdr ++ body ++ wrapSfx, utf8Len preamble, utf8Len fnMainHdr)

/-- The wrapping step of `process_code_block`: classify, then wrap.
`none` where `split_items_and_statements` panics. -/
def wrap_code (code : List Char) : Option (List Char × Nat × Nat) :=
  wrapFixup code (split_items_and_statements code)

/-- Outcome of `analyzer.analyze`: a list of raw hover records, or an
engine error (whose message the caller only logs). -/
inductive EngineOut where
  | ok : List RawAnnot → EngineOut
  | fail : EngineOut

/-- The `match analyzer.analyze(&wrapped_code)` of the source: remap the
records on success, log and return the empty list on an engine error. -/
def engineToList (original_len preamble_len fn_main_offset : Nat) :
    EngineOut → Option (List TypeAnnot)
  | EngineOut.ok infos => some (remap infos preamble_len fn_main_offset original_len)
  | EngineOut.fail => some []

/-- Run the engine on the wrapped program, if wrapping survived. -/
def runEngine (engine : List Char → EngineOut) (original_len : Nat) :
    Option (List Char × Nat × Nat) → Option (List TypeAnnot)
  | none => none
  | some (wrapped, preamble_len, fn_main_offset) =>
    engineToList original_len preamble_len fn_main_offset (engine wrapped)

/-- `process_code_block` from the source.  `lockOk` is whether
`ANALYZER.lock()` succeeded (a poisoned mutex gives `Err`); `engine` is the
black-box analysis engine.  `none` models the one way the Rust function can
die: the byte-slicing panic inside `split_items_and_statements`. -/
def process_code_block (lockOk : Bool) (engine : List Char → EngineOut)
    (code : List Char) : Option (List TypeAnnot) :=
  if lockOk = false then some []
  else runEngine engine (utf8Len code) (wrap_code code)

-- Concrete sanity checks of the model (spec §8 scenarios).
example : split_items_and_statements ("let y = 5;".toList) =
    some ([], "let y = 5;".toList) := by decide

example : wrap_code ("let y = 5;".toList) =
    some ("fn main() \x7b\nlet y = 5;\n\x7d".toList, 0, 12) := by decide

example : adjust_start 0 12 16 = some 4 := by decide

example : split_items_and_statements ("use foo::Bar;\n".toList) =
    some ("use foo::Bar;\n".toList, []) := by decide

example : split_items_and_statements ([] : List Char) = some ([], []) := by decide

/-- If byte-splitting succeeds, the two pieces concatenate back to the
original text. -/
theorem byteSplitAt_eq_append :
    ∀ (cs : List Char) (n : Nat) (l r : List Char),
      byteSplitAt cs n = some (l, r) → l ++ r = cs := by
  intro cs
  induction cs with
  | nil =>
    intro n l r h
    cases n with
    | zero =>
      simp only [byteSplitAt, Option.some.injEq, Prod.mk.injEq] at h
      simp [← h.1, ← h.2]
    | succ m => simp [byteSplitAt] at h
  | cons c cs ih =>
    intro n l r h
    cases n with
    | zero =>
      simp only [byteSplitAt, Option.some.injEq, Prod.mk.injEq] at h
      simp [← h.1, ← h.2]
    | succ m =>
      simp only [byteSplitAt] at h
      split at h
      · cases h' : byteSplitAt cs (m + 1 - c.utf8Size) with
        | none => rw [h'] at h; simp at h
        | some pr =>
          obtain ⟨l', r'⟩ := pr
          rw [h'] at h
          simp only [Option.some.injEq, Prod.mk.injEq] at h
          obtain ⟨hl, hr⟩ := h
          subst hl; subst hr
          simpa using ih _ _ _ h'
      · simp at h

/-- Claim C1: for annotations against a wrapped program (`fn_main_offset`
positive), the start adjustment is piecewise: starts before the preamble
length are unchanged, starts inside the synthetic header region are
dropped, and later starts are shifted back by the header length; with
`fn_main_offset = 0` every start is unchanged. -/
theorem C1_remap_piecewise (pl fo ol s len : Nat) (t : List Char) (d : Option (List Char)) :
    (fo ≠ 0 → s < pl → adjust_start pl fo s = some s) ∧
    (fo ≠ 0 → pl ≤ s → s < pl + fo →
      adjust_start pl fo s = none ∧ remapOne pl fo ol ⟨s, len, t, d⟩ = none) ∧
    (fo ≠ 0 → pl + fo ≤ s → adjust_start pl fo s = some (s - fo)) ∧
    (fo = 0 → adjust_start pl fo s = some s) := by
  refine ⟨?_, ?_, ?_, ?_⟩
  · intro hfo hlt
    unfold adjust_start
    rw [if_neg hfo, if_pos hlt]
  · intro hfo h1 h2
    have hadj : adjust_start pl fo s = none := by
      unfold adjust_start
      rw [if_neg hfo, if_neg (by omega), if_pos h2]
    exact ⟨hadj, by simp [remapOne, remapFinish, hadj]⟩
  · intro hfo hge
    unfold adjust_start
    rw [if_neg hfo, if_neg (by omega), if_neg (by omega)]
  · intro hfo
    unfold adjust_start
    rw [if_pos hfo]

/-- Witness for C1: each branch of the piecewise adjustment at concrete
inputs. -/
theorem C1_remap_piecewise_witness :
    adjust_start 5 3 2 = some 2 ∧ adjust_start 5 3 6 = none ∧
    adjust_start 5 3 9 = some 6 ∧ adjust_start 7 0 9 = some 9 :=
  ⟨(C1_remap_piecewise 5 3 0 2 0 [] none).1 (by decide) (by decide),
   ((C1_remap_piecewise 5 3 0 6 0 [] none).2.1 (by decide) (by decide) (by decide)).1,
   (C1_remap_piecewise 5 3 0 9 0 [] none).2.2.1 (by decide) (by decide),
   (C1_remap_piecewise 7 0 0 9 0 [] none).2.2.2 rfl⟩

/-- Claim C2: whenever `split_items_and_statements` returns a split, the
preamble concatenated with the body is the original snippet, byte for
byte. -/
theorem C2_split_reassembly (code p b : List Char)
    (h : split_items_and_statements code = some (p, b)) : p ++ b = code := by
  unfold split_items_and_statements at h
  split at h
  · simp only [Option.some.injEq, Prod.mk.injEq] at h
    obtain ⟨h1, h2⟩ := h
    subst h1; subst h2
    simp
  · cases hbs : byteSplitAt code (min (scanLines (rustLines code) 0 0 0) (utf8Len code)) with
    | none => rw [hbs] at h; cases h
    | some pr =>
      obtain ⟨pre, body⟩ := pr
      rw [hbs] at h
      simp only [splitFixup] at h
      have hpb := byteSplitAt_eq_append code _ pre body hbs
      by_cases ht : rustTrim body = []
      · rw [if_pos ht] at h
        simp only [Option.some.injEq, Prod.mk.injEq] at h
        obtain ⟨h1, h2⟩ := h
        subst h1; subst h2
        simp
      · rw [if_neg ht] at h
        simp only [Option.some.injEq, Prod.mk.injEq] at h
        obtain ⟨h1, h2⟩ := h
        subst h1; subst h2
        exact hpb

/-- Witness for C2 on a snippet that genuinely splits. -/
theorem C2_split_reassembly_witness :
    "use a;\n".toList ++ "let x = 1;".toList = "use a;\nlet x = 1;".toList :=
  C2_split_reassembly ("use a;\nlet x = 1;".toList) ("use a;\n".toList)
    ("let x = 1;".toList) (by decide)

/-- Claim C3: an annotation whose adjusted start reaches the original
length is dropped; an annotation of byte length at most one is dropped;
and the remapping is a homomorphism for list append, so survivors keep the
engine's original order. -/
theorem C3_filters_and_order :
    (∀ pl fo ol info a, adjust_start pl fo (RawAnnot.start info) = some a → ol ≤ a →
        remapOne pl fo ol info = none) ∧
    (∀ pl fo ol info, RawAnnot.length info ≤ 1 → remapOne pl fo ol info = none) ∧
    (∀ pl fo ol xs ys, remap (xs ++ ys) pl fo ol = remap xs pl fo ol ++ remap ys pl fo ol) := by
  refine ⟨?_, ?_, ?_⟩
  · intro pl fo ol info a hadj hge
    simp [remapOne, remapFinish, hadj, if_pos hge]
  · intro pl fo ol info hlen
    unfold remapOne
    cases hadj : adjust_start pl fo info.start with
    | none => rfl
    | some a =>
      simp only [remapFinish]
      by_cases h1 : ol ≤ a
      · rw [if_pos h1]
      · rw [if_neg h1, if_pos hlen]
  · intro pl fo ol xs ys
    simp [remap, List.filterMap_append]

/-- Witness for C3: each filter and the order law at concrete inputs. -/
theorem C3_filters_and_order_witness :
    remapOne 0 0 5 ⟨7, 3, [], none⟩ = none ∧
    remapOne 0 0 5 ⟨2, 1, [], none⟩ = none ∧
    remap ([⟨2, 3, [], none⟩] ++ [⟨0, 2, [], none⟩]) 0 0 9 =
      remap [⟨2, 3, [], none⟩] 0 0 9 ++ remap [⟨0, 2, [], none⟩] 0 0 9 :=
  ⟨C3_filters_and_order.1 0 0 5 ⟨7, 3, [], none⟩ 7 rfl (by decide),
   C3_filters_and_order.2.1 0 0 5 ⟨2, 1, [], none⟩ (by decide),
   C3_filters_and_order.2.2 0 0 9 [⟨2, 3, [], none⟩] [⟨0, 2, [], none⟩]⟩

/-- Claim C4: with a non-empty body the wrapped program is
preamble ++ header ++ body ++ suffix, the header being the entry-point line
plus a newline (12 bytes) and the suffix a newline plus a closing brace;
and the concrete scenario for the snippet of a single let-statement. -/
theorem C4_wrap_shape :
    (∀ code p b, split_items_and_statements code = some (p, b) → b ≠ [] →
        wrap_code code = some (p ++ fnMainHdr ++ b ++ wrapSfx, utf8Len p, 12)) ∧
    split_items_and_statements ("let y = 5;".toList) = some ([], "let y = 5;".toList) ∧
    wrap_code ("let y = 5;".toList) =
      some ("fn main() \x7b\nlet y = 5;\n\x7d".toList, 0, 12) ∧
    adjust_start 0 12 16 = some 4 := by
  refine ⟨?_, by decide, by decide, by decide⟩
  intro code p b hsplit hb
  unfold wrap_code
  rw [hsplit]
  simp only [wrapFixup]
  rw [if_neg hb, show utf8Len fnMainHdr = 12 from by decide]

/-- Witness for C4 applying the general wrap-shape law to the single
let-statement snippet. -/
theorem C4_wrap_shape_witness :
    wrap_code ("let y = 5;".toList) =
      some (([] : List Char) ++ fnMainHdr ++ "let y = 5;".toList ++ wrapSfx,
        utf8Len ([] : List Char), 12) :=
  C4_wrap_shape.1 ("let y = 5;".toList) [] ("let y = 5;".toList) (by decide) (by decide)

/-- A snippet with CRLF line endings and a multibyte character: the byte
offsets kept by the scan drift below the true line starts (the scan counts
one byte per line ending while CRLF occupies two), landing inside the
two-byte character, where the Rust byte-slicing panics. -/
def crlfPanicCode : List Char := "#[a]\r\n#[b]\r\nuse é\r\nlet x = 1;".toList

/-- Claim C5 (refuted by the code): on `crlfPanicCode` the computed split
point (17) is not a character boundary, so `&code[..split_point]` panics
in Rust; the model returns `none` instead of an annotation list. -/
theorem C5_crlf_slice_panic :
    split_items_and_statements crlfPanicCode = none ∧
    process_code_block true (fun _ => EngineOut.ok []) crlfPanicCode = none := by decide

/-- A complete entry-point function written with a newline between the
keyword and the name: valid in the source language, but it does not
contain the exact substring the classifier looks for. -/
def fnNlMainCode : List Char := "fn\nmain() \x7b\x7d".toList

/-- Counterexample for C6: this snippet is a complete entry-point function
definition, yet the classifier does not return it whole as preamble — it
returns an empty preamble and the whole snippet as body, so it gets
wrapped. -/
theorem C6_counterexample :
    split_items_and_statements fnNlMainCode = some ([], fnNlMainCode) ∧
    fnNlMainCode ≠ [] ∧
    wrap_code fnNlMainCode =
      some (([] : List Char) ++ fnMainHdr ++ fnNlMainCode ++ wrapSfx, 0, 12) := by decide

/-- Claim C6 as amended: the protection applies to snippets containing the
exact substring of the entry-point header: those are returned whole as
preamble with an empty body, never wrapped, and starts pass through
unchanged. -/
theorem C6_amended (code : List Char)
    (h : containsSub ("fn main".toList) code = true) :
    split_items_and_statements code = some (code, []) ∧
    wrap_code code = some (code, 0, 0) ∧
    ∀ s, adjust_start 0 0 s = some s := by
  have hs : split_items_and_statements code = some (code, []) := by
    unfold split_items_and_statements
    rw [if_pos h]
  refine ⟨hs, ?_, fun s => rfl⟩
  unfold wrap_code
  rw [hs]
  simp [wrapFixup]

/-- Witness for the amended C6 at a snippet whose entry-point substring
sits inside a comment. -/
theorem C6_amended_witness :
    split_items_and_statements ("// fn main used\nlet x = 1;".toList) =
      some ("// fn main used\nlet x = 1;".toList, []) :=
  (C6_amended ("// fn main used\nlet x = 1;".toList) (by decide)).1

/-- Counterexample for C7: an annotation whose remapped range [8, 13)
extends past an original length of 10 is nevertheless kept — only the
start is checked. -/
theorem C7_counterexample :
    remapOne 0 12 10 ⟨20, 5, "abcde".toList, none⟩ =
      some ⟨8, 5, "abcde".toList, none⟩ ∧ 10 < 8 + 5 := by decide

/-- Claim C7 as amended: the remapper excludes an annotation when its
adjusted start is at or past the original length; the end of the range is
not checked. -/
theorem C7_amended (pl fo ol : Nat) (info : RawAnnot) (a : Nat)
    (h1 : adjust_start pl fo (RawAnnot.start info) = some a) (h2 : ol ≤ a) :
    remapOne pl fo ol info = none := by
  simp [remapOne, remapFinish, h1, if_pos h2]

/-- Witness for the amended C7. -/
theorem C7_amended_witness : remapOne 3 0 5 ⟨7, 4, [], none⟩ = none :=
  C7_amended 3 0 5 ⟨7, 4, [], none⟩ 7 rfl (by decide)

/-- The mixed item/statement scenario of the spec. -/
def c8Code : List Char := "fn helper() -> i32 \x7b 1 \x7d\nlet z = helper();".toList

/-- Counterexample for C8: the classifier does yield the stated preamble
and body, but the preamble is 25 bytes, not 26. -/
theorem C8_counterexample :
    split_items_and_statements c8Code =
      some ("fn helper() -> i32 \x7b 1 \x7d\n".toList, "let z = helper();".toList) ∧
    utf8Len ("fn helper() -> i32 \x7b 1 \x7d\n".toList) = 25 ∧
    ¬ utf8Len ("fn helper() -> i32 \x7b 1 \x7d\n".toList) = 26 := by decide

/-- Claim C8 as amended: preamble of 25 bytes, synthetic header region
[25, 37); the annotation at wrapped offset 10 passes through unchanged and
the one at wrapped offset 30 is dropped. -/
theorem C8_amended :
    split_items_and_statements c8Code =
      some ("fn helper() -> i32 \x7b 1 \x7d\n".toList, "let z = helper();".toList) ∧
    utf8Len ("fn helper() -> i32 \x7b 1 \x7d\n".toList) = 25 ∧
    adjust_start 25 12 10 = some 10 ∧
    adjust_start 25 12 30 = none ∧
    remapOne 25 12 (utf8Len c8Code) ⟨10, 6, [], none⟩ = some ⟨10, 6, [], none⟩ ∧
    remapOne 25 12 (utf8Len c8Code) ⟨30, 6, [], none⟩ = none := by decide

/-- Claim C10: the classifier's entry-point check is a plain substring
test; any snippet containing "fn main" anywhere is returned whole as
preamble, never wrapped, and is sent to the engine verbatim. -/
theorem C10_fn_main_substring (code : List Char) (engine : List Char → EngineOut)
    (h : containsSub ("fn main".toList) code = true) :
    split_items_and_statements code = some (code, []) ∧
    ∀ infos, engine code = EngineOut.ok infos →
      process_code_block true engine code = some (remap infos 0 0 (utf8Len code)) := by
  have hs : split_items_and_statements code = some (code, []) := by
    unfold split_items_and_statements
    rw [if_pos h]
  have hw : wrap_code code = some (code, 0, 0) := by
    unfold wrap_code
    rw [hs]
    simp [wrapFixup]
  refine ⟨hs, fun infos he => ?_⟩
  unfold process_code_block
  rw [if_neg (by simp), hw]
  simp [runEngine, he, engineToList]

/-- Witness for C10 at a snippet that is itself an entry-point function. -/
theorem C10_fn_main_substring_witness :
    process_code_block true (fun _ => EngineOut.ok []) ("fn main() \x7b\x7d".toList) =
      some (remap [] 0 0 (utf8Len ("fn main() \x7b\x7d".toList))) :=
  (C10_fn_main_substring ("fn main() \x7b\x7d".toList) (fun _ => EngineOut.ok [])
    (by decide)).2 [] rfl

/-! Development for claim C9: where the split point can land.

The split point the scan computes is a sum of line lengths plus one byte
per line; on carriage-return-free input every such position sits just
after a newline of the snippet (or at its very start, or one past the end
for a final unterminated line).  The lemmas below reconstruct the snippet
from its lines and locate the split point. -/

/-- Join newline-split segments back with newlines (left inverse of
`splitNl`). -/
def joinNl : List (List Char) → List Char
  | [] => []
  | [l] => l
  | l :: ls => l ++ '\n' :: joinNl ls

/-- Each line followed by its terminating newline, concatenated. -/
def termJoin (ls : List (List Char)) : List Char :=
  (ls.map (fun l => l ++ ['\n'])).flatten

theorem utf8Len_append (a b : List Char) :
    utf8Len (a ++ b) = utf8Len a + utf8Len b := by
  induction a with
  | nil => simp [utf8Len]
  | cons c cs ih =>
    simp only [List.cons_append]
    show c.utf8Size + utf8Len (cs ++ b) = c.utf8Size + utf8Len cs + utf8Len b
    rw [ih]
    omega

theorem termJoin_cons (l : List Char) (ls : List (List Char)) :
    termJoin (l :: ls) = (l ++ ['\n']) ++ termJoin ls := by
  simp [termJoin]

theorem termJoin_append (a b : List (List Char)) :
    termJoin (a ++ b) = termJoin a ++ termJoin b := by
  simp [termJoin]

/-- The join of at least one newline-terminated line ends with a newline. -/
theorem termJoin_ends_nl :
    ∀ (ls : List (List Char)), ls ≠ [] → ∃ q, termJoin ls = q ++ ['\n'] := by
  intro ls
  induction ls with
  | nil => intro h; exact absurd rfl h
  | cons l rest ih =>
    intro _
    cases rest with
    | nil => exact ⟨l, by simp [termJoin]⟩
    | cons b bs =>
      obtain ⟨q, hq⟩ := ih (by simp)
      refine ⟨(l ++ ['\n']) ++ q, ?_⟩
      rw [termJoin_cons, hq]
      simp [List.append_assoc]

/-- Splitting at byte index zero always succeeds. -/
theorem byteSplitAt_zero (cs : List Char) : byteSplitAt cs 0 = some ([], cs) := by
  cases cs <;> rfl

/-- Splitting `a ++ b` at the byte length of `a` succeeds and returns
exactly `(a, b)`. -/
theorem byteSplitAt_prefix : ∀ (a b : List Char),
    byteSplitAt (a ++ b) (utf8Len a) = some (a, b) := by
  intro a
  induction a with
  | nil => intro b; exact byteSplitAt_zero b
  | cons c cs ih =>
    intro b
    have hpos : 0 < c.utf8Size := c.utf8Size_pos
    have hm : utf8Len (c :: cs) = (c.utf8Size + utf8Len cs - 1) + 1 := by
      simp only [utf8Len]
      omega
    rw [List.cons_append, hm]
    simp only [byteSplitAt]
    rw [if_pos (by omega)]
    have hsub : c.utf8Size + utf8Len cs - 1 + 1 - c.utf8Size = utf8Len cs := by omega
    rw [hsub, ih b]

/-- Splitting a text at the byte length of a known prefix recovers the two
parts. -/
theorem byteSplitAt_of_eq_append (code a b : List Char) (h : code = a ++ b) :
    byteSplitAt code (utf8Len a) = some (a, b) := by
  subst h
  exact byteSplitAt_prefix a b

/-- Taking at most the length of the left part of an append stays in the
left part. -/
theorem take_append_left {α : Type} (l₁ l₂ : List α) (k : Nat) (h : k ≤ l₁.length) :
    (l₁ ++ l₂).take k = l₁.take k := by
  induction l₁ generalizing k with
  | nil =>
    have : k = 0 := by simpa using h
    subst this
    simp
  | cons a as ih =>
    cases k with
    | zero => simp
    | succ m =>
      simp only [List.cons_append, List.take_succ_cons]
      rw [ih m (by simpa using h)]

theorem splitNl_ne_nil (cs : List Char) : splitNl cs ≠ [] := by
  induction cs with
  | nil => simp [splitNl]
  | cons c cs ih =>
    simp only [splitNl]
    rcases h : splitNl cs with _ | ⟨l, ls⟩
    · exact absurd h ih
    · by_cases hc : c = '\n' <;> simp [splitNlCons, hc]

theorem joinNl_cons (l : List Char) (ls : List (List Char)) (h : ls ≠ []) :
    joinNl (l :: ls) = l ++ '\n' :: joinNl ls := by
  cases ls with
  | nil => exact absurd rfl h
  | cons a as => rfl

/-- Joining the newline-split segments reconstructs the text. -/
theorem joinNl_splitNl (cs : List Char) : joinNl (splitNl cs) = cs := by
  induction cs with
  | nil => rfl
  | cons c cs ih =>
    simp only [splitNl]
    rcases h : splitNl cs with _ | ⟨l, ls⟩
    · exact absurd h (splitNl_ne_nil cs)
    · rw [h] at ih
      simp only [splitNlCons]
      by_cases hc : c = '\n'
      · subst hc
        rw [if_pos rfl, joinNl_cons _ _ (by simp)]
        simpa using ih
      · rw [if_neg hc]
        cases ls with
        | nil => simpa [joinNl] using ih
        | cons b bs =>
          rw [joinNl_cons _ _ (by simp)]
          rw [joinNl_cons _ _ (by simp)] at ih
          rw [← ih]
          simp

/-- Every character of a newline-split segment comes from the text. -/
theorem mem_of_mem_splitNl {c : Char} :
    ∀ {cs l : List Char}, l ∈ splitNl cs → c ∈ l → c ∈ cs := by
  intro cs
  induction cs with
  | nil =>
    intro l hl hc
    simp [splitNl] at hl
    subst hl
    simp at hc
  | cons a as ih =>
    intro l hl hc
    simp only [splitNl] at hl
    rcases h : splitNl as with _ | ⟨x, xs⟩
    · exact absurd h (splitNl_ne_nil as)
    · rw [h] at hl
      simp only [splitNlCons] at hl
      by_cases ha : a = '\n'
      · rw [if_pos ha] at hl
        rcases List.mem_cons.mp hl with h1 | h2
        · subst h1; simp at hc
        · exact List.mem_cons_of_mem a (ih (by rw [h]; exact h2) hc)
      · rw [if_neg ha] at hl
        rcases List.mem_cons.mp hl with h1 | h2
        · subst h1
          rcases List.mem_cons.mp hc with h3 | h4
          · rw [h3]; exact List.mem_cons_self a as
          · exact List.mem_cons_of_mem a
              (ih (by rw [h]; exact List.mem_cons_self x xs) h4)
        · exact List.mem_cons_of_mem a
            (ih (by rw [h]; exact List.mem_cons_of_mem x h2) hc)

/-- A segment without a carriage return is unchanged by `stripCr`. -/
theorem stripCr_of_not_mem {l : List Char} (h : '\r' ∉ l) : stripCr l = l := by
  unfold stripCr
  rw [if_neg (fun hg => h (List.mem_of_getLast?_eq_some hg))]

/-- Reconstruction through `linesFix`: on carriage-return-free segments the
joined text is either the newline-terminated join of all resulting lines,
or that join of all but the last line followed by the last line (which had
no final newline). -/
theorem linesFix_recon : ∀ (p : List (List Char)), (∀ l ∈ p, '\r' ∉ l) →
    joinNl p = termJoin (linesFix p) ∨
    ∃ init lst, linesFix p = init ++ [lst] ∧ joinNl p = termJoin init ++ lst := by
  intro p
  induction p with
  | nil => intro _; exact Or.inl rfl
  | cons l ls ih =>
    intro hno
    cases ls with
    | nil =>
      by_cases hl : l = []
      · subst hl
        left
        simp [joinNl, linesFix, termJoin]
      · right
        refine ⟨[], l, ?_, ?_⟩
        · simp [linesFix, hl]
        · simp [joinNl, termJoin]
    | cons b bs =>
      have hstrip : stripCr l = l := stripCr_of_not_mem (hno l (by simp))
      have hrest : ∀ x ∈ b :: bs, '\r' ∉ x := fun x hx => hno x (List.mem_cons_of_mem _ hx)
      have hfix : linesFix (l :: b :: bs) = l :: linesFix (b :: bs) := by
        simp [linesFix, hstrip]
      rcases ih hrest with h1 | ⟨init, lst, h2, h3⟩
      · left
        rw [joinNl_cons _ _ (by simp), hfix, termJoin_cons, h1]
        simp
      · right
        refine ⟨l :: init, lst, ?_, ?_⟩
        · rw [hfix, h2]
          rfl
        · rw [joinNl_cons _ _ (by simp), h3, termJoin_cons, List.append_assoc]
          simp

/-- Reconstruction of a carriage-return-free snippet from `rustLines`. -/
theorem rustLines_recon (cs : List Char) (h : '\r' ∉ cs) :
    cs = termJoin (rustLines cs) ∨
    ∃ init lst, rustLines cs = init ++ [lst] ∧ cs = termJoin init ++ lst := by
  have hseg : ∀ l ∈ splitNl cs, '\r' ∉ l := by
    intro l hl hc
    exact h (mem_of_mem_splitNl hl hc)
  have hrec := linesFix_recon (splitNl cs) hseg
  rw [joinNl_splitNl] at hrec
  rcases hrec with h1 | ⟨init, lst, h2, h3⟩
  · exact Or.inl (by rw [rustLines]; exact h1)
  · exact Or.inr ⟨init, lst, by rw [rustLines]; exact h2, h3⟩

/-- Every value `scanLines` can return: either the initial split point, or
the byte length of the newline-terminated join of a non-empty prefix of
the lines, shifted by the initial offset. -/
theorem scanLines_result :
    ∀ (ls : List (List Char)) (d : Int) (off split : Nat),
      scanLines ls d off split = split ∨
      ∃ k, 1 ≤ k ∧ k ≤ ls.length ∧
        scanLines ls d off split = off + utf8Len (termJoin (ls.take k)) := by
  intro ls
  induction ls with
  | nil => intro d off split; exact Or.inl rfl
  | cons line rest ih =>
    intro d off split
    have hnl : utf8Len ['\n'] = 1 := by decide
    have hlen1 : utf8Len (termJoin ((line :: rest).take 1)) = utf8Len line + 1 := by
      show utf8Len (termJoin (line :: rest.take 0)) = _
      rw [termJoin_cons, utf8Len_append, utf8Len_append, hnl]
      simp [termJoin, utf8Len]
    have hlenS : ∀ k, utf8Len (termJoin ((line :: rest).take (k + 1))) =
        (utf8Len line + 1) + utf8Len (termJoin (rest.take k)) := by
      intro k
      rw [List.take_succ_cons, termJoin_cons, utf8Len_append, utf8Len_append, hnl]
    have hA : ∀ d' : Int,
        scanLines rest d' (off + (utf8Len line + 1)) (off + (utf8Len line + 1)) = split ∨
        ∃ k, 1 ≤ k ∧ k ≤ (line :: rest).length ∧
          scanLines rest d' (off + (utf8Len line + 1)) (off + (utf8Len line + 1)) =
            off + utf8Len (termJoin ((line :: rest).take k)) := by
      intro d'
      rcases ih d' (off + (utf8Len line + 1)) (off + (utf8Len line + 1)) with h | ⟨k, hk1, hk2, hk3⟩
      · refine Or.inr ⟨1, le_refl 1, by simp, ?_⟩
        rw [h, hlen1]
      · refine Or.inr ⟨k + 1, by omega, by simp only [List.length_cons]; omega, ?_⟩
        rw [hk3, hlenS k]
        omega
    have hB : ∀ d' : Int,
        scanLines rest d' (off + (utf8Len line + 1)) split = split ∨
        ∃ k, 1 ≤ k ∧ k ≤ (line :: rest).length ∧
          scanLines rest d' (off + (utf8Len line + 1)) split =
            off + utf8Len (termJoin ((line :: rest).take k)) := by
      intro d'
      rcases ih d' (off + (utf8Len line + 1)) split with h | ⟨k, hk1, hk2, hk3⟩
      · exact Or.inl h
      · refine Or.inr ⟨k + 1, by omega, by simp only [List.length_cons]; omega, ?_⟩
        rw [hk3, hlenS k]
        omega
    simp only [scanLines]
    split_ifs <;> first
      | exact hA _
      | exact hB _
      | exact Or.inl rfl

/-- The statement-line counterexample snippet for C9: an item line opening
a brace that never closes, followed by a statement. -/
def c9Code : List Char := "fn f() \x7b\nlet x = 1;".toList

/-- Counterexample for C9: the split occurs with an empty preamble and a
non-empty body whose first line is an item line (it matches the function
keyword), not a statement line. -/
theorem C9_counterexample :
    split_items_and_statements c9Code = some ([], c9Code) ∧
    c9Code ≠ [] ∧
    is_item_line ((rustLines c9Code).headD []) = true := by decide

/-- Claim C9 as amended: on a snippet free of carriage returns, whenever a
split occurs with a non-empty body the preamble ends exactly at a line
boundary: it is empty or ends with a newline.  (The body starts at that
same boundary, but need not start at a statement line: it can start at an
item line that opened a brace which never closes.) -/
theorem C9_amended (code p b : List Char) (hcr : '\r' ∉ code)
    (hsp : split_items_and_statements code = some (p, b)) (hb : b ≠ []) :
    p = [] ∨ ∃ q, p = q ++ ['\n'] := by
  unfold split_items_and_statements at hsp
  split at hsp
  · simp only [Option.some.injEq, Prod.mk.injEq] at hsp
    exact absurd hsp.2.symm hb
  · rcases scanLines_result (rustLines code) 0 0 0 with hzero | ⟨k, hk1, hk2, hkeq⟩
    · rw [hzero, Nat.zero_min, byteSplitAt_zero] at hsp
      simp only [splitFixup] at hsp
      by_cases ht : rustTrim code = []
      · rw [if_pos ht] at hsp
        simp only [Option.some.injEq, Prod.mk.injEq] at hsp
        exact absurd hsp.2.symm hb
      · rw [if_neg ht] at hsp
        simp only [Option.some.injEq, Prod.mk.injEq] at hsp
        exact Or.inl hsp.1.symm
    · rcases rustLines_recon code hcr with hA | ⟨init, lst, hil, hBeq⟩
      · have hdecomp : code =
            termJoin ((rustLines code).take k) ++ termJoin ((rustLines code).drop k) := by
          conv_lhs => rw [hA]
          rw [← termJoin_append, List.take_append_drop]
        have hkeq2 : scanLines (rustLines code) 0 0 0 =
            utf8Len (termJoin ((rustLines code).take k)) := by
          rw [hkeq, Nat.zero_add]
        have hle : utf8Len (termJoin ((rustLines code).take k)) ≤ utf8Len code := by
          conv_rhs => rw [hdecomp]
          rw [utf8Len_append]
          omega
        have hbs : byteSplitAt code (utf8Len (termJoin ((rustLines code).take k))) =
            some (termJoin ((rustLines code).take k), termJoin ((rustLines code).drop k)) :=
          byteSplitAt_of_eq_append code _ _ hdecomp
        rw [hkeq2, Nat.min_eq_left hle, hbs] at hsp
        simp only [splitFixup] at hsp
        by_cases ht : rustTrim (termJoin ((rustLines code).drop k)) = []
        · rw [if_pos ht] at hsp
          simp only [Option.some.injEq, Prod.mk.injEq] at hsp
          exact absurd hsp.2.symm hb
        · rw [if_neg ht] at hsp
          simp only [Option.some.injEq, Prod.mk.injEq] at hsp
          right
          have htk : (rustLines code).take k ≠ [] := by
            intro hnil
            have h0 : min k (rustLines code).length = 0 := by
              rw [← List.length_take, hnil]
              rfl
            omega
          obtain ⟨q, hq⟩ := termJoin_ends_nl _ htk
          refine ⟨q, ?_⟩
          rw [← hsp.1, hq]
      · by_cases hks : k ≤ init.length
        · have htake : (rustLines code).take k = init.take k := by
            rw [hil, take_append_left _ _ _ hks]
          have hdecomp : code =
              termJoin (init.take k) ++ (termJoin (init.drop k) ++ lst) := by
            conv_lhs => rw [hBeq]
            conv_lhs =>
              rw [show init = init.take k ++ init.drop k from (List.take_append_drop k init).symm]
            rw [termJoin_append, List.append_assoc]
          have hkeq2 : scanLines (rustLines code) 0 0 0 =
              utf8Len (termJoin (init.take k)) := by
            rw [hkeq, htake, Nat.zero_add]
          have hle : utf8Len (termJoin (init.take k)) ≤ utf8Len code := by
            conv_rhs => rw [hdecomp]
            rw [utf8Len_append]
            omega
          have hbs : byteSplitAt code (utf8Len (termJoin (init.take k))) =
              some (termJoin (init.take k), termJoin (init.drop k) ++ lst) :=
            byteSplitAt_of_eq_append code _ _ hdecomp
          rw [hkeq2, Nat.min_eq_left hle, hbs] at hsp
          simp only [splitFixup] at hsp
          by_cases ht : rustTrim (termJoin (init.drop k) ++ lst) = []
          · rw [if_pos ht] at hsp
            simp only [Option.some.injEq, Prod.mk.injEq] at hsp
            exact absurd hsp.2.symm hb
          · rw [if_neg ht] at hsp
            simp only [Option.some.injEq, Prod.mk.injEq] at hsp
            right
            have htk : init.take k ≠ [] := by
              intro hnil
              have h0 : min k init.length = 0 := by
                rw [← List.length_take, hnil]
                rfl
              omega
            obtain ⟨q, hq⟩ := termJoin_ends_nl _ htk
            refine ⟨q, ?_⟩
            rw [← hsp.1, hq]
        · have hlenls : (rustLines code).length = init.length + 1 := by
            rw [hil]
            simp
          have htake : (rustLines code).take k = init ++ [lst] := by
            rw [hil]
            apply List.take_of_length_le
            simp
            omega
          have hterm : utf8Len (termJoin (init ++ [lst])) = utf8Len code + 1 := by
            rw [termJoin_append, hBeq, utf8Len_append]
            have h1 : termJoin [lst] = lst ++ ['\n'] := by simp [termJoin]
            rw [h1, utf8Len_append, utf8Len_append]
            have hnl : utf8Len ['\n'] = 1 := by decide
            rw [hnl]
            omega
          have hsp0 : scanLines (rustLines code) 0 0 0 = utf8Len code + 1 := by
            rw [hkeq, htake, hterm, Nat.zero_add]
          have hbs : byteSplitAt code (utf8Len code) = some (code, []) := by
            have h2 := byteSplitAt_prefix code []
            simpa using h2
          rw [hsp0, Nat.min_eq_right (by omega), hbs] at hsp
          simp only [splitFixup] at hsp
          rw [ite_self] at hsp
          simp only [Option.some.injEq, Prod.mk.injEq] at hsp
          exact absurd hsp.2.symm hb

/-- Witness for the amended C9: on the mixed import/statement snippet the
preamble ends with a newline. -/
theorem C9_amended_witness :
    "use a;\n".toList = ([] : List Char) ∨ ∃ q, "use a;\n".toList = q ++ ['\n'] :=
  C9_amended ("use a;\nlet x = 1;".toList) ("use a;\n".toList) ("let x = 1;".toList)
    (by decide) (by decide) (by decide)

end Twoslash
